import Mathlib

/-!
# Latin-1 narrowing helpers of `src/main/native/utf8_jni.cc`

A shallow embedding of the two conversion functions of namespace `blaze_jni`
(`GetByteArrayUtf8Chars` and `GetStringUtf8chars`) together with the small part
of the JNI host they talk to, followed by theorems about them.

Conventions of the embedding.

* A `jchar` (unsigned 16 bit) is a `Nat`, a `jbyte` (signed 8 bit) is an `Int`,
  and a `char` stored in the output vector is its 8-bit pattern, a `Nat` below 256.
* `std::vector<char>` is a `List Nat`; its `size()` is the length of the list.
  A store `value_utf8[i] = c` is `vectorStore`: below `size()` it replaces element
  `i`; at or beyond `size()` the source writes outside the storage of the vector
  (through a null pointer when the vector is empty), which is undefined
  behaviour, and the call ends there with `Outcome.outOfRange`.  Each store is
  written to the event log together with the size of the vector at that moment.
* The host is explicit state `JNIEnv`: the log of host calls, of reads of the
  borrowed view, and of stores to the output vector, in program order.
* `throw std::runtime_error(what)` ends the call with `Outcome.thrown what`; the
  host state reached at the throw, or at a store outside the vector, is returned
  with the outcome.
-/

namespace blaze_jni

/-- The constant `latin1Mask = 0x00ff` of the anonymous namespace. -/
def latin1Mask : Nat := 0x00ff

/-- What the run of an entry point leaves in the log, in program order. -/
inductive Event
  | GetArrayLength
  | GetByteArrayElements
  | ReleaseByteArrayElements
  | GetStringLength
  | GetStringCritical
  | ReleaseStringCritical
  /-- A read `b[i]` or `str[i]` of the borrowed view. -/
  | load (i : Nat)
  /-- A store `value_utf8[i] = ...` into a vector that holds `size` elements. -/
  | store (i size : Nat)
  deriving DecidableEq, Repr

/-- The host: whether it hands out a critical view of a string when asked
(`GetStringCritical` may answer `nullptr`), and the log so far. -/
structure JNIEnv where
  criticalAvailable : Bool
  log : List Event
  deriving DecidableEq, Repr

/-- Append one event to the log. -/
def JNIEnv.record (env : JNIEnv) (e : Event) : JNIEnv :=
  { env with log := env.log ++ [e] }

/-- A Java string: its UTF-16 code units. -/
abbrev jstring := List Nat

/-- A Java byte array: its signed 8-bit elements. -/
abbrev jbyteArray := List Int

/-- Host call `env->GetStringLength(string)`. -/
def GetStringLength (env : JNIEnv) (string : jstring) : Nat × JNIEnv :=
  (string.length, env.record Event.GetStringLength)

/-- Host call `env->GetStringCritical(string, nullptr)`: the code units, or
`none` for `nullptr`. -/
def GetStringCritical (env : JNIEnv) (string : jstring) : Option (List Nat) × JNIEnv :=
  (if env.criticalAvailable then some string else none, env.record Event.GetStringCritical)

/-- Host call `env->ReleaseStringCritical(string, str)`. -/
def ReleaseStringCritical (env : JNIEnv) : JNIEnv :=
  env.record Event.ReleaseStringCritical

/-- Host call `env->GetArrayLength(array)`. -/
def GetArrayLength (env : JNIEnv) (array : jbyteArray) : Nat × JNIEnv :=
  (array.length, env.record Event.GetArrayLength)

/-- Host call `env->GetByteArrayElements(array, nullptr)`; the source uses the
answer without a null check, so the view is taken to be there. -/
def GetByteArrayElements (env : JNIEnv) (array : jbyteArray) : List Int × JNIEnv :=
  (array, env.record Event.GetByteArrayElements)

/-- Host call `env->ReleaseByteArrayElements(array, b, 0)`. -/
def ReleaseByteArrayElements (env : JNIEnv) : JNIEnv :=
  env.record Event.ReleaseByteArrayElements

/-- The conversion in `jchar unicode = b[i]` for a `jbyte`: signed 8 bit to
unsigned 16 bit, that is reduction modulo `2^16`. -/
def jcharOfJbyte (b : Int) : Nat := (b % 65536).toNat

/-- The conversion in `value_utf8[i] = unicode`: the low 8 bits. -/
def charOfJchar (unicode : Nat) : Nat := unicode % 256

/-- The text `"Extended UTF-8 char: " + std::to_string(unicode)`. -/
def extendedCharMessage (unicode : Nat) : String :=
  "Extended UTF-8 char: " ++ toString unicode

/-- How a call ends: it returns the vector, or it throws `std::runtime_error`, or it
stores at an index `i` that is not below the `size` of the vector. -/
inductive Outcome
  | returned (value_utf8 : List Nat)
  | thrown (what : String)
  | outOfRange (i size : Nat)
  deriving DecidableEq, Repr

/-- The store `value_utf8[i] = c`: `none` when `i` is not below `size()`. -/
def vectorStore (value_utf8 : List Nat) (i : Nat) (c : Nat) : Option (List Nat) :=
  if i < value_utf8.length then some (value_utf8.set i c) else none

/-- The loop `for (int i = 0; i < size; i++) ...` shared word for word by both
functions, from index `i` with `remaining = size - i` iterations to go.  `view i`
is the value of `jchar unicode = b[i]` (resp. `str[i]`).  The loop ends early, with
the outcome of the call, at a throw or at a store outside the vector. -/
def forLoop (view : Nat → Nat) :
    (remaining : Nat) → (i : Nat) → (value_utf8 : List Nat) → JNIEnv →
      Except Outcome (List Nat) × JNIEnv
  | 0, _, value_utf8, env => (Except.ok value_utf8, env)
  | remaining + 1, i, value_utf8, env =>
    let unicode := view i
    let env := env.record (Event.load i)
    if unicode ≤ latin1Mask then
      let env := env.record (Event.store i value_utf8.length)
      match vectorStore value_utf8 i (charOfJchar unicode) with
      | none => (Except.error (Outcome.outOfRange i value_utf8.length), env)
      | some value_utf8 => forLoop view remaining (i + 1) value_utf8 env
    else
      (Except.error (Outcome.thrown (extendedCharMessage unicode)), env)

/-- The function `GetByteArrayUtf8Chars(JNIEnv *env, jbyteArray array)`. -/
def GetByteArrayUtf8Chars (env : JNIEnv) (array : jbyteArray) : Outcome × JNIEnv :=
  let (size, env) := GetArrayLength env array
  let (b, env) := GetByteArrayElements env array
  let value_utf8 : List Nat := List.replicate size 0
  match forLoop (fun i => jcharOfJbyte (b.getD i 0)) size 0 value_utf8 env with
  | (Except.error ending, env) => (ending, env)
  | (Except.ok value_utf8, env) =>
    let env := env.record (Event.store size value_utf8.length)
    match vectorStore value_utf8 size 0 with
    | none => (Outcome.outOfRange size value_utf8.length, env)
    | some value_utf8 =>
      let env := ReleaseByteArrayElements env
      (Outcome.returned value_utf8, env)

/-- The function `GetStringUtf8chars(JNIEnv *env, jstring string)`. -/
def GetStringUtf8chars (env : JNIEnv) (string : jstring) : Outcome × JNIEnv :=
  let (size, env) := GetStringLength env string
  let (str, env) := GetStringCritical env string
  match str with
  | none => (Outcome.returned [], env)
  | some str =>
    let value_utf8 : List Nat := List.replicate size 0
    match forLoop (fun i => str.getD i 0) size 0 value_utf8 env with
    | (Except.error ending, env) => (ending, env)
    | (Except.ok value_utf8, env) =>
      let env := env.record (Event.store size value_utf8.length)
      match vectorStore value_utf8 size 0 with
      | none => (Outcome.outOfRange size value_utf8.length, env)
      | some value_utf8 =>
        let env := ReleaseStringCritical env
        (Outcome.returned value_utf8, env)

/-- A host that hands out critical views and has logged nothing yet. -/
def freshEnv : JNIEnv := { criticalAvailable := true, log := [] }

/-- A host that refuses critical views and has logged nothing yet. -/
def starvedEnv : JNIEnv := { criticalAvailable := false, log := [] }


/-- The events the loop logs while it accepts `n` units from index `i` on and
stores them into a vector of `size` elements. -/
def acceptedEvents (size : Nat) : Nat → Nat → List Event
  | 0, _ => []
  | n + 1, i => Event.load i :: Event.store i size :: acceptedEvents size n (i + 1)

/-- The 8-bit value `v` (0..255) as the `jbyte` with the same bit pattern. -/
def jbyteOfByte (v : Nat) : Int := if v < 128 then (v : Int) else (v : Int) - 256

/-! ## Lemmas on the loop and on the two entry points -/

theorem JNIEnv.record_log (env : JNIEnv) (e : Event) : (env.record e).log = env.log ++ [e] := rfl

theorem JNIEnv.record_criticalAvailable (env : JNIEnv) (e : Event) :
    (env.record e).criticalAvailable = env.criticalAvailable := rfl

theorem vectorStore_of_lt {v : List Nat} {i : Nat} (c : Nat) (h : i < v.length) :
    vectorStore v i c = some (v.set i c) := by
  simp [vectorStore, h]

theorem vectorStore_length (v : List Nat) (c : Nat) : vectorStore v v.length c = none := by
  simp [vectorStore]

/-- When every unit from `i` on is within the mask and the vector has room for them,
the loop runs to its end. -/
theorem forLoop_accepts (view : Nat → Nat) :
    ∀ (k i : Nat) (v : List Nat) (env : JNIEnv),
      (∀ j, j < k → view (i + j) ≤ latin1Mask) → i + k ≤ v.length →
      ∃ v', forLoop view k i v env =
          (Except.ok v', { env with log := env.log ++ acceptedEvents v.length k i }) ∧
        v'.length = v.length ∧
        ∀ j, v'[j]? =
          if i ≤ j ∧ j < i + k then some (charOfJchar (view j)) else v[j]? := by
  intro k
  induction k with
  | zero =>
    intro i v env _ _
    refine ⟨v, ?_, rfl, ?_⟩
    · simp [forLoop, acceptedEvents]
    · intro j
      have : ¬ (i ≤ j ∧ j < i + 0) := by omega
      rw [if_neg this]
  | succ k ih =>
    intro i v env h hroom
    have h0 : view i ≤ latin1Mask := by simpa using h 0 (Nat.succ_pos k)
    have hi : i < v.length := by omega
    have hrest : ∀ j, j < k → view (i + 1 + j) ≤ latin1Mask := by
      intro j hj
      have := h (j + 1) (by omega)
      simpa [Nat.add_assoc, Nat.add_comm 1 j] using this
    obtain ⟨v', hrun, hlen, hget⟩ :=
      ih (i + 1) (v.set i (charOfJchar (view i)))
        ((env.record (Event.load i)).record (Event.store i v.length)) hrest
        (by simp only [List.length_set]; omega)
    refine ⟨v', ?_, ?_, ?_⟩
    · simp only [forLoop, h0, if_true, vectorStore_of_lt _ hi]
      rw [hrun]
      simp [JNIEnv.record, acceptedEvents]
    · simpa using hlen
    · intro j
      rw [hget j]
      simp only [List.getElem?_set]
      by_cases hij : i = j
      · subst hij
        have h1 : ¬ (i + 1 ≤ i ∧ i < i + 1 + k) := by omega
        have h2 : (i ≤ i ∧ i < i + (k + 1)) := by omega
        rw [if_neg h1, if_pos h2, if_pos rfl, if_pos hi]
      · by_cases hc : i + 1 ≤ j ∧ j < i + 1 + k
        · have h2 : (i ≤ j ∧ j < i + (k + 1)) := by omega
          rw [if_pos hc, if_pos h2]
        · have h2 : ¬ (i ≤ j ∧ j < i + (k + 1)) := by omega
          rw [if_neg hc, if_neg h2, if_neg hij]

/-- When the units from `i` on are within the mask up to offset `m` and the unit at
offset `m` is not, the loop throws at that unit. -/
theorem forLoop_rejects (view : Nat → Nat) :
    ∀ (m k i : Nat) (v : List Nat) (env : JNIEnv), m < k → i + m ≤ v.length →
      (∀ j, j < m → view (i + j) ≤ latin1Mask) → ¬ view (i + m) ≤ latin1Mask →
      forLoop view k i v env =
        (Except.error (Outcome.thrown (extendedCharMessage (view (i + m)))),
          { env with log := env.log ++ acceptedEvents v.length m i ++ [Event.load (i + m)] }) := by
  intro m
  induction m with
  | zero =>
    intro k i v env hk _ _ hbad
    obtain ⟨k, rfl⟩ : ∃ k', k = k' + 1 := ⟨k - 1, by omega⟩
    have hbad0 : ¬ view i ≤ latin1Mask := by simpa using hbad
    simp [forLoop, hbad0, acceptedEvents, JNIEnv.record]
  | succ m ih =>
    intro k i v env hk hroom h hbad
    obtain ⟨k, rfl⟩ : ∃ k', k = k' + 1 := ⟨k - 1, by omega⟩
    have h0 : view i ≤ latin1Mask := by simpa using h 0 (Nat.succ_pos m)
    have hi : i < v.length := by omega
    have hrest : ∀ j, j < m → view (i + 1 + j) ≤ latin1Mask := by
      intro j hj
      have := h (j + 1) (by omega)
      simpa [Nat.add_assoc, Nat.add_comm 1 j] using this
    have hbad1 : ¬ view (i + 1 + m) ≤ latin1Mask := by
      simpa [Nat.add_assoc, Nat.add_comm 1 m] using hbad
    have := ih k (i + 1) (v.set i (charOfJchar (view i)))
      ((env.record (Event.load i)).record (Event.store i v.length)) (by omega)
      (by simp only [List.length_set]; omega) hrest hbad1
    simp only [forLoop, h0, if_true, vectorStore_of_lt _ hi]
    rw [this]
    simp [JNIEnv.record, acceptedEvents, Nat.add_assoc, Nat.add_comm 1 m]

theorem range_map_getD {α β : Type} (l : List α) (d : α) (f : α → β) :
    (List.range l.length).map (fun j => f (l.getD j d)) = l.map f := by
  apply List.ext_getElem?
  intro j
  by_cases hj : j < l.length
  · simp [List.getElem?_map, List.getElem?_range hj, List.getD_eq_getElem?_getD,
      List.getElem?_eq_getElem hj]
  · have hj2 : l.length ≤ j := Nat.le_of_not_lt hj
    rw [List.getElem?_eq_none (by simpa using hj2), List.getElem?_eq_none (by simpa using hj2)]

/-- A full run of the loop over a fresh vector when every unit is within the mask. -/
theorem forLoop_full (view : Nat → Nat) (size : Nat) (env : JNIEnv)
    (h : ∀ j, j < size → view j ≤ latin1Mask) :
    forLoop view size 0 (List.replicate size 0) env =
      (Except.ok ((List.range size).map (fun j => charOfJchar (view j))),
        { env with log := env.log ++ acceptedEvents size size 0 }) := by
  obtain ⟨v', hrun, hlen, hget⟩ :=
    forLoop_accepts view size 0 (List.replicate size 0) env (by simpa using h) (by simp)
  have hv : v' = (List.range size).map (fun j => charOfJchar (view j)) := by
    apply List.ext_getElem?
    intro j
    rw [hget j]
    by_cases hj : j < size
    · have hc : 0 ≤ j ∧ j < 0 + size := by omega
      rw [if_pos hc]
      simp [List.getElem?_map, List.getElem?_range hj]
    · have hc : ¬ (0 ≤ j ∧ j < 0 + size) := by omega
      rw [if_neg hc, List.getElem?_eq_none (by simpa using Nat.le_of_not_lt hj),
        List.getElem?_eq_none (by simpa using Nat.le_of_not_lt hj)]
  rw [hrun, hv]
  simp

theorem charOfJchar_of_le {u : Nat} (h : u ≤ latin1Mask) : charOfJchar u = u := by
  unfold charOfJchar latin1Mask at *
  omega

theorem map_charOfJchar_of_le (l : List Nat) (h : ∀ u ∈ l, u ≤ latin1Mask) :
    l.map charOfJchar = l := by
  induction l with
  | nil => rfl
  | cons a t ih =>
    simp only [List.map_cons]
    rw [charOfJchar_of_le (h a (List.mem_cons_self a t)),
      ih (fun u hu => h u (List.mem_cons_of_mem a hu))]

/-- Every list with a unit beyond the mask splits at the first such unit. -/
theorem exists_first_beyond (l : List Nat) (h : ∃ u ∈ l, latin1Mask < u) :
    ∃ pre u post, l = pre ++ u :: post ∧ (∀ x ∈ pre, x ≤ latin1Mask) ∧ latin1Mask < u := by
  induction l with
  | nil => simp at h
  | cons a t ih =>
    by_cases ha : latin1Mask < a
    · exact ⟨[], a, t, rfl, by simp, ha⟩
    · have ht : ∃ u ∈ t, latin1Mask < u := by
        obtain ⟨u, hu, hgt⟩ := h
        rcases List.mem_cons.mp hu with rfl | hu
        · exact absurd hgt ha
        · exact ⟨u, hu, hgt⟩
      obtain ⟨pre, u, post, rfl, hpre, hu⟩ := ih ht
      refine ⟨a :: pre, u, post, rfl, ?_, hu⟩
      intro x hx
      rcases List.mem_cons.mp hx with rfl | hx
      · exact Nat.le_of_not_lt ha
      · exact hpre x hx

/-- The run of `GetStringUtf8chars` when the host hands out no view. -/
theorem GetStringUtf8chars_unavailable (env : JNIEnv) (string : jstring)
    (h : env.criticalAvailable = false) :
    GetStringUtf8chars env string =
      (Outcome.returned [],
        { env with log := env.log ++ [Event.GetStringLength, Event.GetStringCritical] }) := by
  simp [GetStringUtf8chars, GetStringLength, GetStringCritical, JNIEnv.record, h]

/-- The run of `GetStringUtf8chars` on a view whose units are all within the mask: the
loop stores them all, and the call ends at the store of the terminator, at index
`size` of the vector of `size` elements, before the release. -/
theorem GetStringUtf8chars_accepts (env : JNIEnv) (string : jstring)
    (h : env.criticalAvailable = true) (hall : ∀ u ∈ string, u ≤ latin1Mask) :
    GetStringUtf8chars env string =
      (Outcome.outOfRange string.length string.length,
        { env with log := env.log ++ [Event.GetStringLength, Event.GetStringCritical] ++
            acceptedEvents string.length string.length 0 ++
            [Event.store string.length string.length] }) := by
  have hview : ∀ j, j < string.length → (fun i => string.getD i 0) j ≤ latin1Mask := by
    intro j hj
    simp only [List.getD_eq_getElem?_getD, List.getElem?_eq_getElem hj, Option.getD_some]
    exact hall _ (List.getElem_mem hj)
  simp only [GetStringUtf8chars, GetStringLength, GetStringCritical, JNIEnv.record_criticalAvailable, h,
    if_true]
  rw [forLoop_full _ _ _ hview]
  simp only [range_map_getD string 0 charOfJchar, map_charOfJchar_of_le string hall,
    vectorStore_length]
  simp [JNIEnv.record, h]

/-- The run of `GetStringUtf8chars` on a view whose first unit beyond the mask is `u`. -/
theorem GetStringUtf8chars_rejects (env : JNIEnv) (pre post : List Nat) (u : Nat)
    (h : env.criticalAvailable = true) (hpre : ∀ x ∈ pre, x ≤ latin1Mask)
    (hu : latin1Mask < u) :
    GetStringUtf8chars env (pre ++ u :: post) =
      (Outcome.thrown (extendedCharMessage u),
        { env with log := env.log ++ [Event.GetStringLength, Event.GetStringCritical] ++
            acceptedEvents (pre ++ u :: post).length pre.length 0 ++
            [Event.load pre.length] }) := by
  have hlt : pre.length < (pre ++ u :: post).length := by simp
  have hroom : 0 + pre.length ≤ (List.replicate (pre ++ u :: post).length 0).length := by
    simp
  have hgood : ∀ j, j < pre.length →
      (fun i => (pre ++ u :: post).getD i 0) (0 + j) ≤ latin1Mask := by
    intro j hj
    simp only [Nat.zero_add, List.getD_eq_getElem?_getD, List.getElem?_append_left hj,
      List.getElem?_eq_getElem hj, Option.getD_some]
    exact hpre _ (List.getElem_mem hj)
  have hat : (fun i => (pre ++ u :: post).getD i 0) (0 + pre.length) = u := by
    simp [List.getD_eq_getElem?_getD, List.getElem?_append_right (Nat.le_refl pre.length)]
  have hbad : ¬ (fun i => (pre ++ u :: post).getD i 0) (0 + pre.length) ≤ latin1Mask := by
    rw [hat]; exact Nat.not_le_of_lt hu
  have hrun := forLoop_rejects (fun i => (pre ++ u :: post).getD i 0) pre.length
    (pre ++ u :: post).length 0 (List.replicate (pre ++ u :: post).length 0)
    (((env.record Event.GetStringLength).record Event.GetStringCritical)) hlt hroom hgood hbad
  rw [hat] at hrun
  simp only [GetStringUtf8chars, GetStringLength, GetStringCritical, JNIEnv.record_criticalAvailable, h,
    if_true]
  rw [hrun]
  simp [JNIEnv.record, h]

theorem jcharOfJbyte_of_nonneg {b : Int} (h0 : 0 ≤ b) (h1 : b ≤ 127) :
    jcharOfJbyte b = b.toNat ∧ jcharOfJbyte b ≤ latin1Mask := by
  unfold jcharOfJbyte latin1Mask
  omega

theorem jcharOfJbyte_of_neg {b : Int} (h0 : -128 ≤ b) (h1 : b < 0) :
    jcharOfJbyte b = (65536 + b).toNat ∧ 0xFF80 ≤ jcharOfJbyte b ∧ jcharOfJbyte b ≤ 0xFFFF ∧
      latin1Mask < jcharOfJbyte b := by
  unfold jcharOfJbyte latin1Mask
  omega

/-- The run of `GetByteArrayUtf8Chars` on an array whose widened elements are all
within the mask: the loop stores them all, and the call ends at the store of the
terminator, at index `size` of the vector of `size` elements, before the release. -/
theorem GetByteArrayUtf8Chars_accepts (env : JNIEnv) (array : jbyteArray)
    (hall : ∀ b ∈ array, jcharOfJbyte b ≤ latin1Mask) :
    GetByteArrayUtf8Chars env array =
      (Outcome.outOfRange array.length array.length,
        { env with log := env.log ++ [Event.GetArrayLength, Event.GetByteArrayElements] ++
            acceptedEvents array.length array.length 0 ++
            [Event.store array.length array.length] }) := by
  have hview : ∀ j, j < array.length →
      (fun i => jcharOfJbyte (array.getD i 0)) j ≤ latin1Mask := by
    intro j hj
    simp only [List.getD_eq_getElem?_getD, List.getElem?_eq_getElem hj, Option.getD_some]
    exact hall _ (List.getElem_mem hj)
  have hlen : (array.map (fun b => charOfJchar (jcharOfJbyte b))).length = array.length := by
    simp
  simp only [GetByteArrayUtf8Chars, GetArrayLength, GetByteArrayElements]
  rw [forLoop_full _ _ _ hview]
  simp only [range_map_getD array 0 (fun b => charOfJchar (jcharOfJbyte b))]
  rw [← hlen, vectorStore_length]
  simp [JNIEnv.record]

/-- The run of `GetByteArrayUtf8Chars` on an array whose first element widened beyond
the mask is `b`. -/
theorem GetByteArrayUtf8Chars_rejects (env : JNIEnv) (pre post : List Int) (b : Int)
    (hpre : ∀ x ∈ pre, jcharOfJbyte x ≤ latin1Mask) (hb : latin1Mask < jcharOfJbyte b) :
    GetByteArrayUtf8Chars env (pre ++ b :: post) =
      (Outcome.thrown (extendedCharMessage (jcharOfJbyte b)),
        { env with log := env.log ++ [Event.GetArrayLength, Event.GetByteArrayElements] ++
            acceptedEvents (pre ++ b :: post).length pre.length 0 ++
            [Event.load pre.length] }) := by
  have hlt : pre.length < (pre ++ b :: post).length := by simp
  have hroom : 0 + pre.length ≤ (List.replicate (pre ++ b :: post).length 0).length := by
    simp
  have hgood : ∀ j, j < pre.length →
      (fun i => jcharOfJbyte ((pre ++ b :: post).getD i 0)) (0 + j) ≤ latin1Mask := by
    intro j hj
    simp only [Nat.zero_add, List.getD_eq_getElem?_getD, List.getElem?_append_left hj,
      List.getElem?_eq_getElem hj, Option.getD_some]
    exact hpre _ (List.getElem_mem hj)
  have hat : (fun i => jcharOfJbyte ((pre ++ b :: post).getD i 0)) (0 + pre.length) =
      jcharOfJbyte b := by
    simp [List.getD_eq_getElem?_getD, List.getElem?_append_right (Nat.le_refl pre.length)]
  have hbad : ¬ (fun i => jcharOfJbyte ((pre ++ b :: post).getD i 0)) (0 + pre.length) ≤
      latin1Mask := by
    rw [hat]; exact Nat.not_le_of_lt hb
  have hrun := forLoop_rejects (fun i => jcharOfJbyte ((pre ++ b :: post).getD i 0)) pre.length
    (pre ++ b :: post).length 0 (List.replicate (pre ++ b :: post).length 0)
    (((env.record Event.GetArrayLength).record Event.GetByteArrayElements)) hlt hroom hgood hbad
  rw [hat] at hrun
  simp only [GetByteArrayUtf8Chars, GetArrayLength, GetByteArrayElements]
  rw [hrun]
  simp [JNIEnv.record]

/-- The byte-array entry point ends as the string entry point does on the widened
elements. -/
theorem GetByteArrayUtf8Chars_eq_string (env env' : JNIEnv) (array : jbyteArray)
    (h : env'.criticalAvailable = true) :
    (GetByteArrayUtf8Chars env array).1 =
      (GetStringUtf8chars env' (array.map jcharOfJbyte)).1 := by
  by_cases hbad : ∃ u ∈ array.map jcharOfJbyte, latin1Mask < u
  · obtain ⟨pre, u, post, hsplit, hpre, hu⟩ := exists_first_beyond _ hbad
    obtain ⟨apre, atail, rfl, hapre, htail⟩ := List.map_eq_append_iff.mp hsplit
    obtain ⟨b, apost, rfl, hb, hapost⟩ := List.map_eq_cons_iff.mp htail
    subst hapre hb hapost
    rw [GetByteArrayUtf8Chars_rejects env apre apost b
      (fun x hx => hpre _ (List.mem_map_of_mem _ hx)) hu, hsplit,
      GetStringUtf8chars_rejects env' _ _ _ h hpre hu]
  · have hall : ∀ u ∈ array.map jcharOfJbyte, u ≤ latin1Mask := by
      intro u hu
      exact Nat.le_of_not_lt (fun hlt => hbad ⟨u, hu, hlt⟩)
    rw [GetByteArrayUtf8Chars_accepts env array
      (fun b hb => hall _ (List.mem_map_of_mem _ hb)), GetStringUtf8chars_accepts env' _ h hall]
    simp


theorem load_mem_acceptedEvents {size : Nat} :
    ∀ (n i j : Nat), Event.load j ∈ acceptedEvents size n i → i ≤ j ∧ j < i + n := by
  intro n
  induction n with
  | zero => intro i j h; simp [acceptedEvents] at h
  | succ n ih =>
    intro i j h
    simp only [acceptedEvents, List.mem_cons] at h
    rcases h with h | h | h
    · cases h; omega
    · cases h
    · have := ih (i + 1) j h
      omega


theorem mem_acceptedEvents {size : Nat} :
    ∀ (n i : Nat) (e : Event), e ∈ acceptedEvents size n i →
      ∃ j, i ≤ j ∧ j < i + n ∧ (e = Event.load j ∨ e = Event.store j size) := by
  intro n
  induction n with
  | zero => intro i e h; simp [acceptedEvents] at h
  | succ n ih =>
    intro i e h
    simp only [acceptedEvents, List.mem_cons] at h
    rcases h with h | h | h
    · exact ⟨i, Nat.le_refl i, by omega, Or.inl h⟩
    · exact ⟨i, Nat.le_refl i, by omega, Or.inr h⟩
    · obtain ⟨j, h1, h2, h3⟩ := ih (i + 1) e h
      exact ⟨j, by omega, by omega, h3⟩

theorem load_mem_acceptedEvents_of_lt {size : Nat} :
    ∀ (n i j : Nat), i ≤ j → j < i + n → Event.load j ∈ acceptedEvents size n i := by
  intro n
  induction n with
  | zero => intro i j h1 h2; omega
  | succ n ih =>
    intro i j h1 h2
    simp only [acceptedEvents, List.mem_cons]
    by_cases hij : j = i
    · exact Or.inl (by rw [hij])
    · exact Or.inr (Or.inr (ih (i + 1) j (by omega) (by omega)))

/-- What the loop and the terminator store log holds no host call, and its reads of the
view are those at the indices below `n`. -/
theorem accepted_body_facts (n : Nat) (e : Event)
    (he : ∀ j, e ≠ Event.load j) (hs : ∀ j s, e ≠ Event.store j s) :
    e ∉ acceptedEvents n n 0 ++ [Event.store n n] ∧
    (∀ j, Event.load j ∈ acceptedEvents n n 0 ++ [Event.store n n] ↔ j < n) := by
  constructor
  · intro hmem
    rcases List.mem_append.mp hmem with hmem | hmem
    · obtain ⟨j, _, _, hj | hj⟩ := mem_acceptedEvents n 0 e hmem
      · exact he j hj
      · exact hs j n hj
    · exact hs n n (List.mem_singleton.mp hmem)
  · intro j
    constructor
    · intro hmem
      rcases List.mem_append.mp hmem with hmem | hmem
      · have := load_mem_acceptedEvents n 0 j hmem
        omega
      · cases List.mem_singleton.mp hmem
    · intro hj
      exact List.mem_append_left _ (load_mem_acceptedEvents_of_lt n 0 j (Nat.zero_le j) (by omega))

theorem fin_units_le (units : List (Fin 256)) :
    ∀ u ∈ units.map Fin.val, u ≤ latin1Mask := by
  intro u hu
  obtain ⟨x, _, rfl⟩ := List.mem_map.mp hu
  have := x.isLt
  unfold latin1Mask
  omega

theorem fin_elems_le (elems : List (Fin 128)) :
    ∀ b ∈ elems.map (fun x => (x.val : Int)), jcharOfJbyte b ≤ latin1Mask := by
  intro b hb
  obtain ⟨x, _, rfl⟩ := List.mem_map.mp hb
  have := x.isLt
  exact (jcharOfJbyte_of_nonneg (by omega) (by omega)).2

/-- How a run of `GetStringUtf8chars` can end. -/
theorem GetStringUtf8chars_cases (env : JNIEnv) (string : jstring) :
    (env.criticalAvailable = false ∧ (GetStringUtf8chars env string).1 = Outcome.returned []) ∨
    ((∃ u ∈ string, latin1Mask < u) ∧
      ∃ what, (GetStringUtf8chars env string).1 = Outcome.thrown what) ∨
    ((∀ u ∈ string, u ≤ latin1Mask) ∧
      (GetStringUtf8chars env string).1 = Outcome.outOfRange string.length string.length) := by
  by_cases h : env.criticalAvailable = true
  · by_cases hbad : ∃ u ∈ string, latin1Mask < u
    · obtain ⟨pre, u, post, rfl, hpre, hu⟩ := exists_first_beyond string hbad
      exact Or.inr (Or.inl ⟨hbad, extendedCharMessage u,
        by rw [GetStringUtf8chars_rejects env pre post u h hpre hu]⟩)
    · have hall : ∀ u ∈ string, u ≤ latin1Mask := fun u hu =>
        Nat.le_of_not_lt (fun hlt => hbad ⟨u, hu, hlt⟩)
      exact Or.inr (Or.inr ⟨hall, by rw [GetStringUtf8chars_accepts env string h hall]⟩)
  · have h' : env.criticalAvailable = false := by simpa using h
    exact Or.inl ⟨h', by rw [GetStringUtf8chars_unavailable env string h']⟩

/-- How a run of `GetByteArrayUtf8Chars` can end. -/
theorem GetByteArrayUtf8Chars_cases (env : JNIEnv) (array : jbyteArray) :
    ((∃ b ∈ array, latin1Mask < jcharOfJbyte b) ∧
      ∃ what, (GetByteArrayUtf8Chars env array).1 = Outcome.thrown what) ∨
    ((∀ b ∈ array, jcharOfJbyte b ≤ latin1Mask) ∧
      (GetByteArrayUtf8Chars env array).1 = Outcome.outOfRange array.length array.length) := by
  by_cases hbad : ∃ u ∈ array.map jcharOfJbyte, latin1Mask < u
  · obtain ⟨pre, u, post, hsplit, hpre, hu⟩ := exists_first_beyond _ hbad
    obtain ⟨apre, atail, rfl, hapre, htail⟩ := List.map_eq_append_iff.mp hsplit
    obtain ⟨b, apost, rfl, hb, hapost⟩ := List.map_eq_cons_iff.mp htail
    subst hapre hb hapost
    refine Or.inl ⟨⟨b, by simp, hu⟩, extendedCharMessage (jcharOfJbyte b), ?_⟩
    rw [GetByteArrayUtf8Chars_rejects env apre apost b
      (fun x hx => hpre _ (List.mem_map_of_mem _ hx)) hu]
  · have hall : ∀ b ∈ array, jcharOfJbyte b ≤ latin1Mask := by
      intro b hb
      exact Nat.le_of_not_lt (fun hlt => hbad ⟨_, List.mem_map_of_mem _ hb, hlt⟩)
    exact Or.inr ⟨hall, by rw [GetByteArrayUtf8Chars_accepts env array hall]⟩

/-! ## The claims -/

/-- C1 (the code does not do this): `GetStringUtf8chars` returns a vector only when the host
hands out no view, and then the empty one; `GetByteArrayUtf8Chars` never returns a
vector; so no run returns the units followed by a 0.  On the empty string and the
empty byte array the call ends at the store of the terminator at index 0 of a vector of
0 elements, and on the string `[0x41, 0x42]` at index 2 of a vector of 2 elements. -/
theorem C1_no_run_returns_a_terminated_vector :
    (∀ (env : JNIEnv) (string : jstring) (v : List Nat),
      (GetStringUtf8chars env string).1 = Outcome.returned v →
        v = [] ∧ env.criticalAvailable = false) ∧
    (∀ (env : JNIEnv) (array : jbyteArray) (v : List Nat),
      ¬ (GetByteArrayUtf8Chars env array).1 = Outcome.returned v) ∧
    (GetStringUtf8chars freshEnv []).1 = Outcome.outOfRange 0 0 ∧
    (GetByteArrayUtf8Chars freshEnv []).1 = Outcome.outOfRange 0 0 ∧
    (GetStringUtf8chars freshEnv [0x41, 0x42]).1 = Outcome.outOfRange 2 2 ∧
    (GetByteArrayUtf8Chars freshEnv [0x41, 0x42]).1 = Outcome.outOfRange 2 2 := by
  refine ⟨?_, ?_, by decide, by decide, by decide, by decide⟩
  · intro env string v hv
    rcases GetStringUtf8chars_cases env string with ⟨h, hr⟩ | ⟨_, what, hr⟩ | ⟨_, hr⟩
    · rw [hr] at hv
      cases hv
      exact ⟨rfl, h⟩
    · rw [hr] at hv; cases hv
    · rw [hr] at hv; cases hv
  · intro env array v hv
    rcases GetByteArrayUtf8Chars_cases env array with ⟨_, what, hr⟩ | ⟨_, hr⟩
    · rw [hr] at hv; cases hv
    · rw [hr] at hv; cases hv

/-- C2 (the code does not do this): for every string of units at most `0xFF`, with a view
at hand, the loop of `GetStringUtf8chars` leaves in the vector exactly the units, each
its own low 8 bits, but the call does not return them: it ends at the store of the
terminator at index `size` of the vector of `size` elements.  So it is on the string
`[0x41, 0xFF]`. -/
theorem C2_accepted_units_are_stored_but_not_returned :
    (∀ (env : JNIEnv) (units : List (Fin 256)),
      (forLoop (fun i => (units.map Fin.val).getD i 0) (units.map Fin.val).length 0
          (List.replicate (units.map Fin.val).length 0) env).1 =
        Except.ok (units.map Fin.val) ∧
      (units.map Fin.val).map (fun u => u % 256) = units.map Fin.val) ∧
    (∀ (log : List Event) (units : List (Fin 256)),
      (GetStringUtf8chars ⟨true, log⟩ (units.map Fin.val)).1 =
        Outcome.outOfRange units.length units.length) ∧
    (GetStringUtf8chars freshEnv [0x41, 0xFF]).1 = Outcome.outOfRange 2 2 := by
  refine ⟨?_, ?_, by decide⟩
  · intro env units
    have hall := fin_units_le units
    have hview : ∀ j, j < (units.map Fin.val).length →
        (fun i => (units.map Fin.val).getD i 0) j ≤ latin1Mask := by
      intro j hj
      simp only [List.getD_eq_getElem?_getD, List.getElem?_eq_getElem hj, Option.getD_some]
      exact hall _ (List.getElem_mem hj)
    have hmap := map_charOfJchar_of_le _ hall
    refine ⟨?_, hmap⟩
    rw [forLoop_full _ _ _ hview, range_map_getD (units.map Fin.val) 0 charOfJchar, hmap]
  · intro log units
    rw [GetStringUtf8chars_accepts ⟨true, log⟩ _ rfl (fin_units_le units)]
    simp

/-- C3 (the code does not do this): with a view at hand `GetStringUtf8chars` throws exactly
when some unit is above `0xFF`, and it never returns a vector; the one-unit string
`0x100` is rejected with 256, but the one-unit string `0xFF`, which passes the range
check, is not returned either: the call ends at the store of the terminator at index 1
of the vector of 1 element. -/
theorem C3_latin1_boundary_passes_check_but_is_not_returned :
    (∀ (log : List Event) (string : jstring),
      ((∃ what, (GetStringUtf8chars ⟨true, log⟩ string).1 = Outcome.thrown what) ↔
        ∃ u ∈ string, 0xFF < u) ∧
      (∀ v, ¬ (GetStringUtf8chars ⟨true, log⟩ string).1 = Outcome.returned v)) ∧
    (∀ log : List Event,
      (GetStringUtf8chars ⟨true, log⟩ [0xFF]).1 = Outcome.outOfRange 1 1) ∧
    (∀ log : List Event,
      (GetStringUtf8chars ⟨true, log⟩ [0x100]).1 = Outcome.thrown "Extended UTF-8 char: 256") := by
  refine ⟨?_, ?_, ?_⟩
  · intro log string
    rcases GetStringUtf8chars_cases ⟨true, log⟩ string with ⟨h, _⟩ | ⟨hb, what, hr⟩ | ⟨hg, hr⟩
    · cases h
    · refine ⟨⟨fun _ => hb, fun _ => ⟨what, hr⟩⟩, ?_⟩
      intro v hv
      rw [hr] at hv; cases hv
    · refine ⟨⟨?_, ?_⟩, ?_⟩
      · rintro ⟨what, hw⟩
        rw [hr] at hw; cases hw
      · rintro ⟨u, hu, hgt⟩
        exact absurd (hg u hu) (Nat.not_le_of_lt hgt)
      · intro v hv
        rw [hr] at hv; cases hv
  · intro log
    rw [GetStringUtf8chars_accepts ⟨true, log⟩ [0xFF] rfl (by decide)]
    rfl
  · intro log
    exact congrArg Prod.fst
      (GetStringUtf8chars_rejects ⟨true, log⟩ [] [] 0x100 rfl (by decide) (by decide))

/-- C4: with a view at hand that holds a unit above `0xFF`, the string splits at its
first such unit `u` and `GetStringUtf8chars` throws with the text
`Extended UTF-8 char: ` followed by `u` in decimal, nothing being returned; the same
holds whatever follows `u`, no unit after `u` is read, and `[0x100]` throws with 256. -/
theorem C4_throws_first_unit_above_latin1 (env : JNIEnv) (string : jstring)
    (h : env.criticalAvailable = true) (hbad : ∃ u ∈ string, 0xFF < u) :
    ∃ pre u post, string = pre ++ u :: post ∧ (∀ x ∈ pre, x ≤ 0xFF) ∧ 0xFF < u ∧
      (GetStringUtf8chars env string).1 =
        Outcome.thrown ("Extended UTF-8 char: " ++ toString u) ∧
      (∀ post', (GetStringUtf8chars env (pre ++ u :: post')).1 =
        Outcome.thrown ("Extended UTF-8 char: " ++ toString u)) ∧
      (∀ j, Event.load j ∈ (GetStringUtf8chars env string).2.log →
        Event.load j ∈ env.log ∨ j ≤ pre.length) ∧
      (GetStringUtf8chars env [0x100]).1 = Outcome.thrown "Extended UTF-8 char: 256" := by
  obtain ⟨pre, u, post, rfl, hpre, hu⟩ := exists_first_beyond string hbad
  refine ⟨pre, u, post, rfl, hpre, hu, ?_, ?_, ?_, ?_⟩
  · rw [GetStringUtf8chars_rejects env pre post u h hpre hu]
    rfl
  · intro post'
    rw [GetStringUtf8chars_rejects env pre post' u h hpre hu]
    rfl
  · intro j hj
    rw [GetStringUtf8chars_rejects env pre post u h hpre hu] at hj
    simp only [List.mem_append, List.mem_cons, List.mem_singleton, List.not_mem_nil,
      or_false] at hj
    rcases hj with ((hj | hj | hj) | hj) | hj
    · exact Or.inl hj
    · cases hj
    · cases hj
    · have := load_mem_acceptedEvents _ _ _ hj
      right; omega
    · cases hj
      exact Or.inr (Nat.le_refl _)
  · exact congrArg Prod.fst
      (GetStringUtf8chars_rejects env [] [] 0x100 h (by decide) (by decide))

/-- C4 at the string `[0x41, 0x100, 0x200]`. -/
theorem C4_throws_first_unit_above_latin1_witness :
    ∃ pre u post, [0x41, 0x100, 0x200] = pre ++ u :: post ∧ (∀ x ∈ pre, x ≤ 0xFF) ∧
      0xFF < u ∧
      (GetStringUtf8chars freshEnv [0x41, 0x100, 0x200]).1 =
        Outcome.thrown ("Extended UTF-8 char: " ++ toString u) ∧
      (∀ post', (GetStringUtf8chars freshEnv (pre ++ u :: post')).1 =
        Outcome.thrown ("Extended UTF-8 char: " ++ toString u)) ∧
      (∀ j, Event.load j ∈ (GetStringUtf8chars freshEnv [0x41, 0x100, 0x200]).2.log →
        Event.load j ∈ freshEnv.log ∨ j ≤ pre.length) ∧
      (GetStringUtf8chars freshEnv [0x100]).1 = Outcome.thrown "Extended UTF-8 char: 256" :=
  C4_throws_first_unit_above_latin1 freshEnv [0x41, 0x100, 0x200] rfl ⟨0x100, by decide⟩

/-- C5: when the host hands out no view, `GetStringUtf8chars` returns the empty vector
whatever the string holds, having called `GetStringLength` and `GetStringCritical` and
nothing else; in particular `ReleaseStringCritical` is not called. -/
theorem C5_no_view_returns_empty (env : JNIEnv) (string : jstring)
    (h : env.criticalAvailable = false) :
    (GetStringUtf8chars env string).1 = Outcome.returned [] ∧
    (GetStringUtf8chars env string).2.log =
      env.log ++ [Event.GetStringLength, Event.GetStringCritical] ∧
    (GetStringUtf8chars env string).2.log.count Event.ReleaseStringCritical =
      env.log.count Event.ReleaseStringCritical := by
  rw [GetStringUtf8chars_unavailable env string h]
  refine ⟨rfl, rfl, ?_⟩
  simp [List.count_append, List.count_cons]

/-- C5 at the string `[0x41, 0x100]`. -/
theorem C5_no_view_returns_empty_witness :
    (GetStringUtf8chars starvedEnv [0x41, 0x100]).1 = Outcome.returned [] ∧
    (GetStringUtf8chars starvedEnv [0x41, 0x100]).2.log =
      starvedEnv.log ++ [Event.GetStringLength, Event.GetStringCritical] ∧
    (GetStringUtf8chars starvedEnv [0x41, 0x100]).2.log.count Event.ReleaseStringCritical =
      starvedEnv.log.count Event.ReleaseStringCritical :=
  C5_no_view_returns_empty starvedEnv [0x41, 0x100] rfl

/-- C6 (the code does not do this): on the string `[0x100]`, and on `[0x41, 0x100]`, with
a view at hand, `GetStringUtf8chars` throws after `GetStringCritical` was called once
and `ReleaseStringCritical` is never called. -/
theorem C6_throw_leaves_critical_view_unreleased :
    (GetStringUtf8chars freshEnv [0x100]).1 = Outcome.thrown "Extended UTF-8 char: 256" ∧
    (GetStringUtf8chars freshEnv [0x100]).2.log =
      [Event.GetStringLength, Event.GetStringCritical, Event.load 0] ∧
    (GetStringUtf8chars freshEnv [0x100]).2.log.count Event.GetStringCritical = 1 ∧
    (GetStringUtf8chars freshEnv [0x100]).2.log.count Event.ReleaseStringCritical = 0 ∧
    (GetStringUtf8chars freshEnv [0x41, 0x100]).2.log.count Event.GetStringCritical = 1 ∧
    (GetStringUtf8chars freshEnv [0x41, 0x100]).2.log.count Event.ReleaseStringCritical = 0 := by
  decide

/-- C7 (the code does not do this): on the byte array `[-1]` (the byte `0xFF`), and on
`[0x41, -128]`, `GetByteArrayUtf8Chars` throws after `GetByteArrayElements` was called
once and `ReleaseByteArrayElements` is never called. -/
theorem C7_throw_leaves_byte_elements_unreleased :
    (GetByteArrayUtf8Chars freshEnv [-1]).1 = Outcome.thrown "Extended UTF-8 char: 65535" ∧
    (GetByteArrayUtf8Chars freshEnv [-1]).2.log =
      [Event.GetArrayLength, Event.GetByteArrayElements, Event.load 0] ∧
    (GetByteArrayUtf8Chars freshEnv [-1]).2.log.count Event.GetByteArrayElements = 1 ∧
    (GetByteArrayUtf8Chars freshEnv [-1]).2.log.count Event.ReleaseByteArrayElements = 0 ∧
    (GetByteArrayUtf8Chars freshEnv [0x41, -128]).2.log.count Event.GetByteArrayElements = 1 ∧
    (GetByteArrayUtf8Chars freshEnv [0x41, -128]).2.log.count Event.ReleaseByteArrayElements =
      0 := by
  decide


theorem jcharOfJbyte_jbyteOfByte_low {v : Nat} (h : v ≤ 0x7F) :
    jcharOfJbyte (jbyteOfByte v) = v := by
  unfold jcharOfJbyte jbyteOfByte
  split <;> omega

theorem jcharOfJbyte_jbyteOfByte_high {v : Nat} (h0 : 0x80 ≤ v) (h1 : v ≤ 0xFF) :
    jcharOfJbyte (jbyteOfByte v) = 0xFF00 + v := by
  unfold jcharOfJbyte jbyteOfByte
  split <;> omega

/-- C8 as stated fails: the byte value `0x80`, held by the byte array as `-128`, is
widened to `0xFF80`, whose top 8 bits are set, and `GetByteArrayUtf8Chars` throws with
65408 where `GetStringUtf8chars` on the string `[0x80]` does not throw. -/
theorem C8_high_byte_counterexample :
    ¬ (∀ bytes : List Nat, (∀ v ∈ bytes, v ≤ 0xFF) →
        (∀ v ∈ bytes, jcharOfJbyte (jbyteOfByte v) ≤ 0xFF) ∧
        (GetByteArrayUtf8Chars freshEnv (bytes.map jbyteOfByte)).1 =
          (GetStringUtf8chars freshEnv bytes).1) := by
  intro hclaim
  have h := (hclaim [0x80] (by decide)).1 0x80 (by decide)
  exact absurd h (by decide)

/-- C8 as amended: for byte values in `0x00..0xFF` held by a byte array,
`GetByteArrayUtf8Chars` ends as `GetStringUtf8chars` (view at hand) does on the string
of the widened elements, where a value up to `0x7F` is widened to itself and a value
`v` from `0x80` on to `0xFF00 + v`; so for values all up to `0x7F` it ends as
`GetStringUtf8chars` does on the string of those same values. -/
theorem C8_byte_array_as_string_of_widened (env env' : JNIEnv) (bytes : List Nat)
    (h : env'.criticalAvailable = true) (hb : ∀ v ∈ bytes, v ≤ 0xFF) :
    (GetByteArrayUtf8Chars env (bytes.map jbyteOfByte)).1 =
      (GetStringUtf8chars env' ((bytes.map jbyteOfByte).map jcharOfJbyte)).1 ∧
    (∀ v ∈ bytes, v ≤ 0x7F →
      jcharOfJbyte (jbyteOfByte v) = v ∧ jcharOfJbyte (jbyteOfByte v) / 256 = 0) ∧
    (∀ v ∈ bytes, 0x80 ≤ v → jcharOfJbyte (jbyteOfByte v) = 0xFF00 + v) ∧
    ((∀ v ∈ bytes, v ≤ 0x7F) →
      (GetByteArrayUtf8Chars env (bytes.map jbyteOfByte)).1 =
        (GetStringUtf8chars env' bytes).1) := by
  refine ⟨GetByteArrayUtf8Chars_eq_string env env' _ h, ?_, ?_, ?_⟩
  · intro v _ hv
    rw [jcharOfJbyte_jbyteOfByte_low hv]
    omega
  · intro v hmem hv
    exact jcharOfJbyte_jbyteOfByte_high hv (hb v hmem)
  · intro hlow
    rw [GetByteArrayUtf8Chars_eq_string env env' _ h]
    have hid : (bytes.map jbyteOfByte).map jcharOfJbyte = bytes := by
      rw [List.map_map]
      conv_rhs => rw [← List.map_id bytes]
      apply List.map_congr_left
      intro v hv
      exact jcharOfJbyte_jbyteOfByte_low (hlow v hv)
    rw [hid]

/-- C8 as amended at the byte values `[0x41, 0x80, 0x7F]`. -/
theorem C8_byte_array_as_string_of_widened_witness :
    (GetByteArrayUtf8Chars freshEnv ([0x41, 0x80, 0x7F].map jbyteOfByte)).1 =
      (GetStringUtf8chars freshEnv
        (([0x41, 0x80, 0x7F].map jbyteOfByte).map jcharOfJbyte)).1 ∧
    (∀ v ∈ [0x41, 0x80, 0x7F], v ≤ 0x7F →
      jcharOfJbyte (jbyteOfByte v) = v ∧ jcharOfJbyte (jbyteOfByte v) / 256 = 0) ∧
    (∀ v ∈ [0x41, 0x80, 0x7F], 0x80 ≤ v → jcharOfJbyte (jbyteOfByte v) = 0xFF00 + v) ∧
    ((∀ v ∈ [0x41, 0x80, 0x7F], v ≤ 0x7F) →
      (GetByteArrayUtf8Chars freshEnv ([0x41, 0x80, 0x7F].map jbyteOfByte)).1 =
        (GetStringUtf8chars freshEnv [0x41, 0x80, 0x7F]).1) :=
  C8_byte_array_as_string_of_widened freshEnv freshEnv [0x41, 0x80, 0x7F] rfl (by decide)


/-- C9 (the code does not do this): `GetByteArrayUtf8Chars` throws exactly when some element
of the array, all in `-128..127`, is negative, and when `b` is the first negative
element it throws with `65536 + b` in decimal, a value in `0xFF80..0xFFFF` (65535 for
`-1`, the byte `0xFF`); but on an array whose elements are all in `0x00..0x7F` it does
not return: it ends at the store of the terminator at index `size` of the vector of
`size` elements, as on `[0x41]` and on the empty array. -/
theorem C9_nonnegative_bytes_pass_check_but_are_not_returned :
    (∀ (env : JNIEnv) (elems : List (Fin 128)),
      (GetByteArrayUtf8Chars env (elems.map (fun x => (x.val : Int)))).1 =
        Outcome.outOfRange elems.length elems.length) ∧
    (∀ (env : JNIEnv) (array : jbyteArray), (∀ b ∈ array, -128 ≤ b ∧ b ≤ 127) →
      ((∃ what, (GetByteArrayUtf8Chars env array).1 = Outcome.thrown what) ↔
        ∃ b ∈ array, b < 0)) ∧
    (∀ (env : JNIEnv) (pre : List (Fin 128)) (k : Fin 128) (post : List Int),
      (GetByteArrayUtf8Chars env
          (pre.map (fun x => (x.val : Int)) ++ (-(k.val : Int) - 1) :: post)).1 =
        Outcome.thrown
          ("Extended UTF-8 char: " ++ toString (65536 + (-(k.val : Int) - 1)).toNat) ∧
      0xFF80 ≤ (65536 + (-(k.val : Int) - 1)).toNat ∧
      (65536 + (-(k.val : Int) - 1)).toNat ≤ 0xFFFF) ∧
    (GetByteArrayUtf8Chars freshEnv [-1]).1 = Outcome.thrown "Extended UTF-8 char: 65535" ∧
    (GetByteArrayUtf8Chars freshEnv [0x41]).1 = Outcome.outOfRange 1 1 ∧
    (GetByteArrayUtf8Chars freshEnv []).1 = Outcome.outOfRange 0 0 := by
  refine ⟨?_, ?_, ?_, by decide, by decide, by decide⟩
  · intro env elems
    rw [GetByteArrayUtf8Chars_accepts env _ (fin_elems_le elems)]
    simp
  · intro env array hr
    rcases GetByteArrayUtf8Chars_cases env array with ⟨⟨b, hb, hgt⟩, what, hw⟩ | ⟨hg, hw⟩
    · refine ⟨fun _ => ⟨b, hb, ?_⟩, fun _ => ⟨what, hw⟩⟩
      by_contra hneg
      have := (jcharOfJbyte_of_nonneg (by omega) (hr b hb).2).2
      exact absurd this (Nat.not_le_of_lt hgt)
    · constructor
      · rintro ⟨what, hwhat⟩
        rw [hw] at hwhat; cases hwhat
      · rintro ⟨b, hb, hneg⟩
        have := (jcharOfJbyte_of_neg (hr b hb).1 hneg).2.2.2
        exact absurd (hg b hb) (Nat.not_le_of_lt this)
  · intro env pre k post
    have hk := k.isLt
    have hneg : (-(k.val : Int) - 1) < 0 := by omega
    have hlow : -128 ≤ (-(k.val : Int) - 1) := by omega
    obtain ⟨hval, _, _, hgt⟩ := jcharOfJbyte_of_neg hlow hneg
    refine ⟨?_, by omega, by omega⟩
    rw [GetByteArrayUtf8Chars_rejects env _ post _ (fin_elems_le pre) hgt, hval]
    rfl

/-- C10 (the code does not do this): on every accepted input of `n` elements either function
stores the terminator at index `n` of the vector of `n` elements and ends there; a
run that ends at a store outside the vector ends at that store, so the stores of the
loop are inside; on the empty string the only store is at index 0 of a vector of 0
elements. -/
theorem C10_terminator_store_is_outside_the_vector :
    (∀ (log : List Event) (units : List (Fin 256)),
      Event.store units.length units.length ∈
        (GetStringUtf8chars ⟨true, log⟩ (units.map Fin.val)).2.log ∧
      (GetStringUtf8chars ⟨true, log⟩ (units.map Fin.val)).1 =
        Outcome.outOfRange units.length units.length) ∧
    (∀ (env : JNIEnv) (elems : List (Fin 128)),
      Event.store elems.length elems.length ∈
        (GetByteArrayUtf8Chars env (elems.map (fun x => (x.val : Int)))).2.log ∧
      (GetByteArrayUtf8Chars env (elems.map (fun x => (x.val : Int)))).1 =
        Outcome.outOfRange elems.length elems.length) ∧
    (∀ (env : JNIEnv) (string : jstring) (i size : Nat),
      (GetStringUtf8chars env string).1 = Outcome.outOfRange i size →
        i = string.length ∧ size = string.length) ∧
    (∀ (env : JNIEnv) (array : jbyteArray) (i size : Nat),
      (GetByteArrayUtf8Chars env array).1 = Outcome.outOfRange i size →
        i = array.length ∧ size = array.length) ∧
    (GetStringUtf8chars freshEnv []).2.log =
      [Event.GetStringLength, Event.GetStringCritical, Event.store 0 0] ∧
    (GetByteArrayUtf8Chars freshEnv [0x41]).2.log =
      [Event.GetArrayLength, Event.GetByteArrayElements, Event.load 0, Event.store 0 1,
        Event.store 1 1] ∧
    ¬ (∀ i size, Event.store i size ∈ (GetStringUtf8chars freshEnv []).2.log → i < size) := by
  refine ⟨?_, ?_, ?_, ?_, by decide, by decide, ?_⟩
  · intro log units
    rw [GetStringUtf8chars_accepts ⟨true, log⟩ _ rfl (fin_units_le units)]
    simp
  · intro env elems
    rw [GetByteArrayUtf8Chars_accepts env _ (fin_elems_le elems)]
    simp
  · intro env string i size h
    rcases GetStringUtf8chars_cases env string with ⟨_, hr⟩ | ⟨_, what, hr⟩ | ⟨_, hr⟩
    · rw [hr] at h; cases h
    · rw [hr] at h; cases h
    · rw [hr] at h; cases h
      exact ⟨rfl, rfl⟩
  · intro env array i size h
    rcases GetByteArrayUtf8Chars_cases env array with ⟨_, what, hr⟩ | ⟨_, hr⟩
    · rw [hr] at h; cases h
    · rw [hr] at h; cases h
      exact ⟨rfl, rfl⟩
  · intro hall
    exact absurd (hall 0 0 (by decide)) (by decide)

/-- C11 (the code does not do this): on every accepted input with a view at hand the log of
`GetStringUtf8chars` grows by `GetStringLength`, one `GetStringCritical`, the reads and
stores of the loop and the store of the terminator, where the call ends: the view is
acquired once and `ReleaseStringCritical` is not called.  The same holds of
`GetByteArrayUtf8Chars` with `GetArrayLength`, `GetByteArrayElements` and
`ReleaseByteArrayElements`.  So it is on the string `[0x41]` and the byte array
`[0x41]`. -/
theorem C11_accepted_run_ends_before_the_release :
    (∀ (log : List Event) (units : List (Fin 256)),
      (GetStringUtf8chars ⟨true, log⟩ (units.map Fin.val)).2.log =
        log ++ [Event.GetStringLength, Event.GetStringCritical] ++
          acceptedEvents units.length units.length 0 ++
          [Event.store units.length units.length] ∧
      (GetStringUtf8chars ⟨true, log⟩ (units.map Fin.val)).2.log.count
          Event.GetStringCritical = log.count Event.GetStringCritical + 1 ∧
      (GetStringUtf8chars ⟨true, log⟩ (units.map Fin.val)).2.log.count
          Event.ReleaseStringCritical = log.count Event.ReleaseStringCritical) ∧
    (∀ (env : JNIEnv) (elems : List (Fin 128)),
      (GetByteArrayUtf8Chars env (elems.map (fun x => (x.val : Int)))).2.log =
        env.log ++ [Event.GetArrayLength, Event.GetByteArrayElements] ++
          acceptedEvents elems.length elems.length 0 ++
          [Event.store elems.length elems.length] ∧
      (GetByteArrayUtf8Chars env (elems.map (fun x => (x.val : Int)))).2.log.count
          Event.GetByteArrayElements = env.log.count Event.GetByteArrayElements + 1 ∧
      (GetByteArrayUtf8Chars env (elems.map (fun x => (x.val : Int)))).2.log.count
          Event.ReleaseByteArrayElements = env.log.count Event.ReleaseByteArrayElements) ∧
    (GetStringUtf8chars freshEnv [0x41]) =
      (Outcome.outOfRange 1 1,
        ⟨true, [Event.GetStringLength, Event.GetStringCritical, Event.load 0,
          Event.store 0 1, Event.store 1 1]⟩) ∧
    (GetByteArrayUtf8Chars freshEnv [0x41]) =
      (Outcome.outOfRange 1 1,
        ⟨true, [Event.GetArrayLength, Event.GetByteArrayElements, Event.load 0,
          Event.store 0 1, Event.store 1 1]⟩) ∧
    (GetStringUtf8chars freshEnv [0x41]).2.log.count Event.ReleaseStringCritical = 0 ∧
    (GetByteArrayUtf8Chars freshEnv [0x41]).2.log.count Event.ReleaseByteArrayElements = 0 := by
  refine ⟨?_, ?_, by decide, by decide, by decide, by decide⟩
  · intro log units
    have hacq := accepted_body_facts units.length Event.GetStringCritical
      (fun j hj => by cases hj) (fun j s hj => by cases hj)
    have hrel := accepted_body_facts units.length Event.ReleaseStringCritical
      (fun j hj => by cases hj) (fun j s hj => by cases hj)
    have h0 := List.count_eq_zero_of_not_mem hacq.1
    have h1 := List.count_eq_zero_of_not_mem hrel.1
    simp only [List.count_append] at h0 h1
    rw [GetStringUtf8chars_accepts ⟨true, log⟩ _ rfl (fin_units_le units)]
    refine ⟨by simp, ?_, ?_⟩
    · simp [List.count_append, List.count_cons]
      omega
    · simp [List.count_append, List.count_cons]
      omega
  · intro env elems
    have hacq := accepted_body_facts elems.length Event.GetByteArrayElements
      (fun j hj => by cases hj) (fun j s hj => by cases hj)
    have hrel := accepted_body_facts elems.length Event.ReleaseByteArrayElements
      (fun j hj => by cases hj) (fun j s hj => by cases hj)
    have h0 := List.count_eq_zero_of_not_mem hacq.1
    have h1 := List.count_eq_zero_of_not_mem hrel.1
    simp only [List.count_append] at h0 h1
    rw [GetByteArrayUtf8Chars_accepts env _ (fin_elems_le elems)]
    refine ⟨by simp, ?_, ?_⟩
    · simp [List.count_append, List.count_cons]
      omega
    · simp [List.count_append, List.count_cons]
      omega

end blaze_jni
